import Mathlib

/-!
# Verification of the AMS326 matrix-multiplication exercise

Shallow embedding of `src/ex2.py` (identical algorithmic content in
`src/matrixmult.py`): a naive triple-loop matrix multiplication with a
floating-point-operation counter, and a recursive Strassen multiplication
with its own counter.

A numpy 2-D array is embedded as a `List (List Int)` (exact arithmetic in
place of float64, as the claims permit).  Operations that can raise a
Python/numpy exception (out-of-range indexing, non-broadcastable shapes)
are embedded as `Option`-returning functions, `none` standing for the
raised exception.
-/

namespace AMS326

/-- A numpy 2-D array: a list of rows. -/
abbrev Mat := List (List Int)

/-- `M[i, j]` as a fallible read: `none` models the `IndexError` numpy raises
when `i` or `j` is out of range. -/
def getEntry (M : Mat) (i j : Nat) : Option Int :=
  (M[i]?).bind fun r => r[j]?

/-- Total read used where an index is known to be in range (default 0). -/
def get0 (M : Mat) (i j : Nat) : Int :=
  (getEntry M i j).getD 0

/-- `M.shape[0]`. -/
def rows (M : Mat) : Nat := M.length

/-- `M.shape[1]`: the length of the first row (numpy arrays are rectangular,
so for well-formed matrices every row has this length). -/
def cols (M : Mat) : Nat := ((M.head?).map List.length).getD 0

/-- `M` is a rectangular `r × c` array. -/
def Rect (r c : Nat) (M : Mat) : Prop :=
  M.length = r ∧ ∀ row ∈ M, row.length = c

/-- `M` is a square `n × n` array. -/
def Sqr (n : Nat) (M : Mat) : Prop := Rect n n M

instance (r c : Nat) (M : Mat) : Decidable (Rect r c M) := by
  unfold Rect; infer_instance

instance (n : Nat) (M : Mat) : Decidable (Sqr n M) := by
  unfold Sqr; infer_instance

/-! ## `naive_method`

```python
def naive_method(A, B):
    n = A.shape[0]
    C = np.zeros((n, n))
    flops = 0
    for i in range(n):
        for j in range(n):
            for k in range(n):
                C[i, j] += A[i, k] * B[k, j]
                flops += 2
    return C, flops
```

The three loops are embedded as three recursions over index lists; the
accumulator pair carries the entry being accumulated (initially the `0.`
placed by `np.zeros`) and the running `flops` counter, which increases by 2
at every completed inner-loop step.  A failing read aborts the whole call
(`none`), as the exception would in Python. -/

/-- Inner `k` loop: accumulate `A[i,k] * B[k,j]` into `c`, `flops += 2`. -/
def innerLoop (A B : Mat) (i j : Nat) : List Nat → Int × Nat → Option (Int × Nat)
  | [], cf => some cf
  | k :: ks, cf => do
      let a ← getEntry A i k
      let b ← getEntry B k j
      innerLoop A B i j ks (cf.1 + a * b, cf.2 + 2)

/-- Middle `j` loop: build row `i` of `C` entry by entry. -/
def rowLoop (A B : Mat) (i n : Nat) : List Nat → List Int × Nat → Option (List Int × Nat)
  | [], rf => some rf
  | j :: js, rf => do
      let cf ← innerLoop A B i j (List.range n) (0, rf.2)
      rowLoop A B i n js (rf.1 ++ [cf.1], cf.2)

/-- Outer `i` loop: build `C` row by row. -/
def outerLoop (A B : Mat) (n : Nat) : List Nat → Mat × Nat → Option (Mat × Nat)
  | [], mf => some mf
  | i :: is, mf => do
      let rf ← rowLoop A B i n (List.range n) ([], mf.2)
      outerLoop A B n is (mf.1 ++ [rf.1], rf.2)

/-- `naive_method(A, B)` from `src/ex2.py` lines 11–24. -/
def naive_method (A B : Mat) : Option (Mat × Nat) :=
  let n := rows A
  outerLoop A B n (List.range n) ([], 0)

/-! ## numpy elementwise `+` / `-` with broadcasting

numpy's 2-D broadcasting: along each axis the two extents are compatible
when they are equal or one of them is 1; the result extent is the non-1
extent; incompatible shapes raise a `ValueError`. -/

/-- Axis compatibility for numpy broadcasting. -/
def bcompat (d1 d2 : Nat) : Prop := d1 = d2 ∨ d1 = 1 ∨ d2 = 1

instance (d1 d2 : Nat) : Decidable (bcompat d1 d2) := by
  unfold bcompat; infer_instance

/-- Result extent of a broadcast axis. -/
def bdim (d1 d2 : Nat) : Nat := if d1 = 1 then d2 else d1

/-- Index into an operand along a (possibly broadcast) axis. -/
def bidx (d i : Nat) : Nat := if d = 1 then 0 else i

/-- Shapes of `M` and `N` are broadcast-compatible. -/
def bcastOk (M N : Mat) : Prop :=
  bcompat (rows M) (rows N) ∧ bcompat (cols M) (cols N)

instance (M N : Mat) : Decidable (bcastOk M N) := by
  unfold bcastOk; infer_instance

/-- The broadcast elementwise combination (total; meaningful under
`bcastOk` on rectangular operands, which is the only way it is used). -/
def npZipT (f : Int → Int → Int) (M N : Mat) : Mat :=
  (List.range (bdim (rows M) (rows N))).map fun i =>
    (List.range (bdim (cols M) (cols N))).map fun j =>
      f (get0 M (bidx (rows M) i) (bidx (cols M) j))
        (get0 N (bidx (rows N) i) (bidx (cols N) j))

/-- numpy `M + N`: `none` models the `ValueError` on non-broadcastable
shapes. -/
def npAdd (M N : Mat) : Option Mat :=
  if bcastOk M N then some (npZipT (· + ·) M N) else none

/-- numpy `M - N`. -/
def npSub (M N : Mat) : Option Mat :=
  if bcastOk M N then some (npZipT (· - ·) M N) else none

/-! ## numpy slicing

`M[:mid, :mid]`, `M[:mid, mid:]`, `M[mid:, :mid]`, `M[mid:, mid:]` —
python slices clamp, they never raise. -/

/-- `M[:mid, :mid]`. -/
def tlQ (M : Mat) (mid : Nat) : Mat := (M.take mid).map (·.take mid)

/-- `M[:mid, mid:]`. -/
def trQ (M : Mat) (mid : Nat) : Mat := (M.take mid).map (·.drop mid)

/-- `M[mid:, :mid]`. -/
def blQ (M : Mat) (mid : Nat) : Mat := (M.drop mid).map (·.take mid)

/-- `M[mid:, mid:]`. -/
def brQ (M : Mat) (mid : Nat) : Mat := (M.drop mid).map (·.drop mid)

/-- `C = np.zeros((n, n)); C[:mid,:mid] = C11; C[:mid,mid:] = C12;
C[mid:,:mid] = C21; C[mid:,mid:] = C22`.  The four assignments exactly
tile the `n × n` zero matrix when the quadrants have the four slice
shapes; the guard records that requirement (on every execution path
proved below the assembly is reached only with exactly these shapes). -/
def combine (mid n : Nat) (C11 C12 C21 C22 : Mat) : Option Mat :=
  if Rect mid mid C11 ∧ Rect mid (n - mid) C12 ∧
     Rect (n - mid) mid C21 ∧ Rect (n - mid) (n - mid) C22 then
    some ((C11.zipWith (· ++ ·) C12) ++ (C21.zipWith (· ++ ·) C22))
  else none

/-! ## `strassen_method`

Embedding of `strassen_method(A, B)` from `src/ex2.py` lines 26–74.  The
ten linear-combination arrays `S1 … S10` are all computed in Python before
any recursive call; their ten broadcast-compatibility checks are therefore
grouped in one guard (failure of any of them aborts the call with the same
observable outcome, `none`).  The seven recursive multiplications then run
in order, each propagating failure. -/

theorem rows_npZipT (f : Int → Int → Int) (M N : Mat) :
    (npZipT f M N).length = bdim (rows M) (rows N) := by
  simp [npZipT, rows]

/-- Post-recursion part of `strassen_method`: the FLOP total, the four
result quadrants, and the quadrant assembly. -/
def strassenPost (mid n : Nat) (p1 p2 p3 p4 p5 p6 p7 : Mat × Nat) :
    Option (Mat × Nat) := do
  -- Update FLOPs count
  let flops := p1.2 + p2.2 + p3.2 + p4.2 + p5.2 + p6.2 + p7.2 + 10 * (n / 2) ^ 2
  -- Compute results to form C
  let C11 ← npAdd (← npSub (← npAdd p5.1 p4.1) p2.1) p6.1
  let C12 ← npAdd p1.1 p2.1
  let C21 ← npAdd p3.1 p4.1
  let C22 ← npSub (← npSub (← npAdd p5.1 p1.1) p3.1) p7.1
  -- Combine quadrants to form C
  let C ← combine mid n C11 C12 C21 C22
  pure (C, flops)

/-- `strassen_method(A, B)`. -/
def strassen_method (A B : Mat) : Option (Mat × Nat) :=
  -- n = A.shape[0]
  if h : rows A ≤ 2 then
    -- Base case for 2x2
    naive_method A B
  else
    -- Divide matrices into quadrants
    let mid := rows A / 2
    let A11 := tlQ A mid
    let A12 := trQ A mid
    let A21 := blQ A mid
    let A22 := brQ A mid
    let B11 := tlQ B mid
    let B12 := trQ B mid
    let B21 := blQ B mid
    let B22 := brQ B mid
    if bcastOk B12 B22 ∧ bcastOk A11 A12 ∧ bcastOk A21 A22 ∧ bcastOk B21 B11 ∧
       bcastOk A11 A22 ∧ bcastOk B11 B22 ∧ bcastOk A12 A22 ∧ bcastOk B21 B22 ∧
       bcastOk A11 A21 ∧ bcastOk B11 B12 then
      let S1 := npZipT (· - ·) B12 B22
      let S2 := npZipT (· + ·) A11 A12
      let S3 := npZipT (· + ·) A21 A22
      let S4 := npZipT (· - ·) B21 B11
      let S5 := npZipT (· + ·) A11 A22
      let S6 := npZipT (· + ·) B11 B22
      let S7 := npZipT (· - ·) A12 A22
      let S8 := npZipT (· + ·) B21 B22
      let S9 := npZipT (· - ·) A11 A21
      let S10 := npZipT (· + ·) B11 B12
      do
      -- Recursive multiplications
      let p1 ← strassen_method A11 S1
      let p2 ← strassen_method S2 B22
      let p3 ← strassen_method S3 B11
      let p4 ← strassen_method A22 S4
      let p5 ← strassen_method S5 S6
      let p6 ← strassen_method S7 S8
      let p7 ← strassen_method S9 S10
      strassenPost mid (rows A) p1 p2 p3 p4 p5 p6 p7
    else none
termination_by A.length
decreasing_by
  all_goals
    simp only [rows_npZipT, rows, tlQ, trQ, blQ, brQ, bdim, List.length_map,
      List.length_take, List.length_drop, List.length_range, inf_eq_min,
      Nat.min_def]
  all_goals
    simp only [rows] at h
    first
      | omega
      | (split_ifs <;> omega)

/-! ## Shape and entry lemmas -/

theorem rows_of_rect {r c : Nat} {M : Mat} (h : Rect r c M) : rows M = r := h.1

theorem row_of_rect {r c : Nat} {M : Mat} (h : Rect r c M) {i : Nat} (hi : i < r) :
    ∃ row, M[i]? = some row ∧ row.length = c := by
  obtain ⟨hlen, hall⟩ := h
  have hi' : i < M.length := by omega
  exact ⟨M[i], by simp, hall _ (M.getElem_mem hi')⟩

theorem cols_of_rect {r c : Nat} {M : Mat} (h : Rect r c M) (hr : 0 < r) : cols M = c := by
  obtain ⟨row, hrow, hlen⟩ := row_of_rect h hr
  have : M.head? = some row := by
    cases M with
    | nil => simp at hrow
    | cons a l => simpa using hrow
  simp [cols, this, hlen]

theorem getEntry_eq_some {r c : Nat} {M : Mat} (h : Rect r c M) {i j : Nat}
    (hi : i < r) (hj : j < c) : getEntry M i j = some (get0 M i j) := by
  obtain ⟨row, hrow, hlen⟩ := row_of_rect h hi
  have hj' : j < row.length := by omega
  simp [getEntry, get0, hrow, List.getElem?_eq_getElem hj']

theorem getEntry_isSome {r c : Nat} {M : Mat} (h : Rect r c M) {i j : Nat}
    (hi : i < r) (hj : j < c) : (getEntry M i j).isSome := by
  simp [getEntry_eq_some h hi hj]

theorem eq_of_get0_eq {n : Nat} {M N : Mat} (hM : Sqr n M) (hN : Sqr n N)
    (h : ∀ i j, i < n → j < n → get0 M i j = get0 N i j) : M = N := by
  apply List.ext_getElem?
  intro i
  by_cases hi : i < n
  · obtain ⟨rM, hrM, hlM⟩ := row_of_rect hM hi
    obtain ⟨rN, hrN, hlN⟩ := row_of_rect hN hi
    rw [hrM, hrN]
    congr 1
    apply List.ext_getElem?
    intro j
    by_cases hj : j < n
    · have e1 := getEntry_eq_some hM hi hj
      have e2 := getEntry_eq_some hN hi hj
      rw [getEntry, hrM] at e1
      rw [getEntry, hrN] at e2
      simp only [Option.some_bind] at e1 e2
      rw [e1, e2, h i j hi hj]
    · rw [List.getElem?_eq_none (by omega), List.getElem?_eq_none (by omega)]
  · have h1 : M.length = n := hM.1
    have h2 : N.length = n := hN.1
    rw [List.getElem?_eq_none (by omega), List.getElem?_eq_none (by omega)]

/-! ### Quadrant slices -/

theorem rect_tlQ {r c : Nat} {M : Mat} (h : Rect r c M) {m : Nat}
    (hr : m ≤ r) (hc : m ≤ c) : Rect m m (tlQ M m) := by
  obtain ⟨hlen, hall⟩ := h
  refine ⟨by simp [tlQ]; omega, ?_⟩
  intro row hrow
  simp only [tlQ, List.mem_map] at hrow
  obtain ⟨r', hr', rfl⟩ := hrow
  have := hall r' (List.mem_of_mem_take hr')
  simp [this]; omega

theorem rect_trQ {r c : Nat} {M : Mat} (h : Rect r c M) {m : Nat}
    (hr : m ≤ r) : Rect m (c - m) (trQ M m) := by
  obtain ⟨hlen, hall⟩ := h
  refine ⟨by simp [trQ]; omega, ?_⟩
  intro row hrow
  simp only [trQ, List.mem_map] at hrow
  obtain ⟨r', hr', rfl⟩ := hrow
  have := hall r' (List.mem_of_mem_take hr')
  simp [this]

theorem rect_blQ {r c : Nat} {M : Mat} (h : Rect r c M) {m : Nat}
    (hc : m ≤ c) : Rect (r - m) m (blQ M m) := by
  obtain ⟨hlen, hall⟩ := h
  refine ⟨by simp [blQ]; omega, ?_⟩
  intro row hrow
  simp only [blQ, List.mem_map] at hrow
  obtain ⟨r', hr', rfl⟩ := hrow
  have := hall r' (List.mem_of_mem_drop hr')
  simp [this]; omega

theorem rect_brQ {r c : Nat} {M : Mat} (h : Rect r c M) {m : Nat} :
    Rect (r - m) (c - m) (brQ M m) := by
  obtain ⟨hlen, hall⟩ := h
  refine ⟨by simp [brQ]; omega, ?_⟩
  intro row hrow
  simp only [brQ, List.mem_map] at hrow
  obtain ⟨r', hr', rfl⟩ := hrow
  have := hall r' (List.mem_of_mem_drop hr')
  simp [this]

theorem getEntry_tlQ {M : Mat} {mid i j : Nat} (hi : i < mid) (hj : j < mid) :
    getEntry (tlQ M mid) i j = getEntry M i j := by
  simp only [tlQ, getEntry, List.getElem?_map, List.getElem?_take_of_lt hi]
  cases M[i]? with
  | none => rfl
  | some row => simp [List.getElem?_take_of_lt hj]

theorem getEntry_trQ {M : Mat} {mid i j : Nat} (hi : i < mid) :
    getEntry (trQ M mid) i j = getEntry M i (mid + j) := by
  simp only [trQ, getEntry, List.getElem?_map, List.getElem?_take_of_lt hi]
  cases M[i]? with
  | none => rfl
  | some row => simp [List.getElem?_drop]

theorem getEntry_blQ {M : Mat} {mid i j : Nat} (hj : j < mid) :
    getEntry (blQ M mid) i j = getEntry M (mid + i) j := by
  simp only [blQ, getEntry, List.getElem?_map, List.getElem?_drop]
  cases M[mid + i]? with
  | none => rfl
  | some row => simp [List.getElem?_take_of_lt hj]

theorem getEntry_brQ {M : Mat} {mid i j : Nat} :
    getEntry (brQ M mid) i j = getEntry M (mid + i) (mid + j) := by
  simp only [brQ, getEntry, List.getElem?_map, List.getElem?_drop]
  cases M[mid + i]? with
  | none => rfl
  | some row => simp [List.getElem?_drop]

/-! ### Broadcast elementwise operations on equal shapes -/

theorem bidx_of_lt {d i : Nat} (h : i < d) : bidx d i = i := by
  unfold bidx; split <;> omega

theorem bcastOk_of_rect {r c : Nat} {M N : Mat} (hM : Rect r c M) (hN : Rect r c N)
    (hr : 0 < r) : bcastOk M N := by
  refine ⟨?_, ?_⟩
  · left; rw [rows_of_rect hM, rows_of_rect hN]
  · left; rw [cols_of_rect hM hr, cols_of_rect hN hr]

theorem rect_npZipT {r c : Nat} {f : Int → Int → Int} {M N : Mat}
    (hM : Rect r c M) (hN : Rect r c N) (hr : 0 < r) : Rect r c (npZipT f M N) := by
  constructor
  · simp [npZipT, rows_of_rect hM, rows_of_rect hN, bdim] <;> (split <;> omega)
  · intro row hrow
    simp only [npZipT, List.mem_map] at hrow
    obtain ⟨i, _, rfl⟩ := hrow
    simp [cols_of_rect hM hr, cols_of_rect hN hr, bdim] <;> (split <;> omega)

theorem get0_npZipT {r c : Nat} {f : Int → Int → Int} {M N : Mat}
    (hM : Rect r c M) (hN : Rect r c N) (hr : 0 < r) {i j : Nat}
    (hi : i < r) (hj : j < c) :
    get0 (npZipT f M N) i j = f (get0 M i j) (get0 N i j) := by
  have hrw : rows M = r := rows_of_rect hM
  have hrw' : rows N = r := rows_of_rect hN
  have hcw : cols M = c := cols_of_rect hM hr
  have hcw' : cols N = c := cols_of_rect hN hr
  have hbr : bdim (rows M) (rows N) = r := by
    rw [hrw, hrw']; unfold bdim; split <;> omega
  have hbc : bdim (cols M) (cols N) = c := by
    rw [hcw, hcw']; unfold bdim; split <;> omega
  rw [get0, getEntry]
  rw [npZipT, hbr, hbc, List.getElem?_map, List.getElem?_range hi]
  simp only [Option.map_some', Option.some_bind, List.getElem?_map,
    List.getElem?_range hj, Option.getD_some]
  rw [hrw, hrw', hcw, hcw', bidx_of_lt hi, bidx_of_lt hj]

theorem npAdd_of_rect {r c : Nat} {M N : Mat} (hM : Rect r c M) (hN : Rect r c N)
    (hr : 0 < r) : npAdd M N = some (npZipT (· + ·) M N) := by
  rw [npAdd, if_pos (bcastOk_of_rect hM hN hr)]

theorem npSub_of_rect {r c : Nat} {M N : Mat} (hM : Rect r c M) (hN : Rect r c N)
    (hr : 0 < r) : npSub M N = some (npZipT (· - ·) M N) := by
  rw [npSub, if_pos (bcastOk_of_rect hM hN hr)]

/-! ## Correctness of `naive_method` -/

/-- Entry `(i, j)` of the mathematical product `A·B` truncated to
dimension `n`: `Σ_{k<n} A[i,k]·B[k,j]`. -/
def dotL (A B : Mat) (n i j : Nat) : Int :=
  ((List.range n).map fun k => get0 A i k * get0 B k j).sum

/-- The mathematical `n × n` product matrix. -/
def mulL (A B : Mat) (n : Nat) : Mat :=
  (List.range n).map fun i => (List.range n).map fun j => dotL A B n i j

theorem rect_mulL (A B : Mat) (n : Nat) : Rect n n (mulL A B n) := by
  constructor
  · simp [mulL]
  · intro row hrow
    simp only [mulL, List.mem_map] at hrow
    obtain ⟨i, _, rfl⟩ := hrow
    simp

theorem get0_mulL {A B : Mat} {n i j : Nat} (hi : i < n) (hj : j < n) :
    get0 (mulL A B n) i j = dotL A B n i j := by
  rw [get0, getEntry, mulL, List.getElem?_map, List.getElem?_range hi]
  simp [List.getElem?_range hj]

theorem getEntry_some_of_isSome {M : Mat} {i j : Nat}
    (h : (getEntry M i j).isSome) : getEntry M i j = some (get0 M i j) := by
  cases hE : getEntry M i j with
  | none => rw [hE] at h; simp at h
  | some a => simp [get0, hE]

theorem innerLoop_ok (A B : Mat) (i j : Nat) (ks : List Nat) (c : Int) (f : Nat)
    (h : ∀ k ∈ ks, (getEntry A i k).isSome ∧ (getEntry B k j).isSome) :
    innerLoop A B i j ks (c, f) =
      some (c + (ks.map fun k => get0 A i k * get0 B k j).sum, f + 2 * ks.length) := by
  induction ks generalizing c f with
  | nil => simp [innerLoop]
  | cons k ks ih =>
    obtain ⟨hA, hB⟩ := h k (by simp)
    rw [innerLoop, getEntry_some_of_isSome hA, getEntry_some_of_isSome hB]
    simp only [Option.bind_eq_bind, Option.some_bind]
    rw [ih _ _ fun k hk => h k (by simp [hk])]
    simp only [Option.some.injEq, Prod.mk.injEq, List.map_cons, List.sum_cons,
      List.length_cons]
    constructor
    · ring
    · omega

theorem rowLoop_ok (A B : Mat) (i n : Nat) (js : List Nat) (row : List Int) (f : Nat)
    (h : ∀ j ∈ js, ∀ k, k < n → (getEntry A i k).isSome ∧ (getEntry B k j).isSome) :
    rowLoop A B i n js (row, f) =
      some (row ++ js.map (fun j => dotL A B n i j), f + 2 * n * js.length) := by
  induction js generalizing row f with
  | nil => simp [rowLoop]
  | cons j js ih =>
    rw [rowLoop,
      innerLoop_ok A B i j (List.range n) 0 f
        (fun k hk => h j (by simp) k (List.mem_range.mp hk))]
    simp only [Option.bind_eq_bind, Option.some_bind]
    rw [ih _ _ fun j' hj' => h j' (by simp [hj'])]
    simp only [Option.some.injEq, Prod.mk.injEq, List.map_cons,
      List.length_cons, List.length_range]
    constructor
    · rw [List.append_assoc]
      simp [dotL]
    · ring

theorem outerLoop_ok (A B : Mat) (n : Nat) (is : List Nat) (m : Mat) (f : Nat)
    (h : ∀ i ∈ is, ∀ j, j < n → ∀ k, k < n →
      (getEntry A i k).isSome ∧ (getEntry B k j).isSome) :
    outerLoop A B n is (m, f) =
      some (m ++ is.map (fun i => (List.range n).map fun j => dotL A B n i j),
        f + 2 * n * n * is.length) := by
  induction is generalizing m f with
  | nil => simp [outerLoop]
  | cons i is ih =>
    rw [outerLoop,
      rowLoop_ok A B i n (List.range n) [] f
        (fun j hj k hk => h i (by simp) j (List.mem_range.mp hj) k hk)]
    simp only [Option.bind_eq_bind, Option.some_bind]
    rw [ih _ _ fun i' hi' => h i' (by simp [hi'])]
    simp only [Option.some.injEq, Prod.mk.injEq, List.map_cons,
      List.length_cons, List.length_range]
    constructor
    · rw [List.append_assoc]
      simp
    · ring

/-- `naive_method` succeeds whenever every index access it performs is in
range, and then computes exactly the triple-loop sums together with a FLOP
count of `2·n³`, where `n = A.shape[0]`. -/
theorem naive_method_ok {n : Nat} {A B : Mat} (hA : rows A = n)
    (haccA : ∀ i k, i < n → k < n → (getEntry A i k).isSome)
    (haccB : ∀ k j, k < n → j < n → (getEntry B k j).isSome) :
    naive_method A B = some (mulL A B n, 2 * n ^ 3) := by
  rw [naive_method]
  simp only [hA]
  rw [outerLoop_ok A B n (List.range n) [] 0
    (fun i hi j hj k hk => ⟨haccA i k (List.mem_range.mp hi) hk, haccB k j hk hj⟩)]
  simp only [Option.some.injEq, Prod.mk.injEq, List.nil_append, List.length_range]
  constructor
  · rfl
  · ring

/-- Specialisation: on square `n × n` operands `naive_method` returns the
product matrix and the count `2·n³`. -/
theorem naive_method_sqr {n : Nat} {A B : Mat} (hA : Sqr n A) (hB : Sqr n B) :
    naive_method A B = some (mulL A B n, 2 * n ^ 3) :=
  naive_method_ok (rows_of_rect hA)
    (fun _ _ hi hk => getEntry_isSome hA hi hk)
    (fun _ _ hk hj => getEntry_isSome hB hk hj)

/-! ## Bridge to Mathlib matrices -/

/-- The `Matrix` over `Fin n` read off a list matrix. -/
def toMat (n : Nat) (M : Mat) : Matrix (Fin n) (Fin n) ℤ :=
  Matrix.of fun i j => get0 M i.val j.val

theorem sum_range_list (n : Nat) (f : Nat → Int) :
    ∑ k ∈ Finset.range n, f k = ((List.range n).map f).sum := by
  induction n with
  | zero => simp
  | succ n ih => rw [Finset.sum_range_succ, List.range_succ]; simp [ih]

/-- The list-level product agrees with the Mathlib matrix product. -/
theorem toMat_mulL (A B : Mat) (n : Nat) :
    toMat n (mulL A B n) = toMat n A * toMat n B := by
  ext i j
  rw [Matrix.mul_apply, toMat, Matrix.of_apply, get0_mulL i.isLt j.isLt, dotL,
    ← sum_range_list,
    ← Fin.sum_univ_eq_sum_range (fun k => get0 A i.val k * get0 B k j.val) n]
  rfl

theorem eq_of_toMat_eq {n : Nat} {M N : Mat} (hM : Sqr n M) (hN : Sqr n N)
    (h : toMat n M = toMat n N) : M = N := by
  apply eq_of_get0_eq hM hN
  intro i j hi hj
  exact congrFun (congrFun h ⟨i, hi⟩) ⟨j, hj⟩

theorem eq_of_submatrix_equiv {l m : Type*} {X Y : Matrix m m ℤ} (e : l ≃ m)
    (h : X.submatrix e e = Y.submatrix e e) : X = Y := by
  ext i j
  have := congrFun (congrFun h (e.symm i)) (e.symm j)
  simpa using this

theorem get0_tlQ {M : Mat} {mid i j : Nat} (hi : i < mid) (hj : j < mid) :
    get0 (tlQ M mid) i j = get0 M i j := by
  rw [get0, getEntry_tlQ hi hj, get0]

theorem get0_trQ {M : Mat} {mid i j : Nat} (hi : i < mid) :
    get0 (trQ M mid) i j = get0 M i (mid + j) := by
  rw [get0, getEntry_trQ hi, get0]

theorem get0_blQ {M : Mat} {mid i j : Nat} (hj : j < mid) :
    get0 (blQ M mid) i j = get0 M (mid + i) j := by
  rw [get0, getEntry_blQ hj, get0]

theorem get0_brQ {M : Mat} {mid i j : Nat} :
    get0 (brQ M mid) i j = get0 M (mid + i) (mid + j) := by
  rw [get0, getEntry_brQ, get0]

/-- Reading a `(mid+mid)`-dimensional list matrix through the canonical
`Fin mid ⊕ Fin mid ≃ Fin (mid+mid)` equivalence produces the block matrix
of its four numpy quadrant slices. -/
theorem submatrix_toMat (mid : Nat) (M : Mat) :
    (toMat (mid + mid) M).submatrix finSumFinEquiv finSumFinEquiv =
      Matrix.fromBlocks (toMat mid (tlQ M mid)) (toMat mid (trQ M mid))
        (toMat mid (blQ M mid)) (toMat mid (brQ M mid)) := by
  ext s t
  cases s with
  | inl i =>
    cases t with
    | inl j =>
      simp [Matrix.submatrix_apply, Matrix.fromBlocks, toMat,
        get0_tlQ i.isLt j.isLt]
    | inr j =>
      simp [Matrix.submatrix_apply, Matrix.fromBlocks, toMat,
        get0_trQ i.isLt (j := j.val), Nat.add_comm]
  | inr i =>
    cases t with
    | inl j =>
      simp [Matrix.submatrix_apply, Matrix.fromBlocks, toMat,
        get0_blQ (i := i.val) j.isLt, Nat.add_comm]
    | inr j =>
      simp [Matrix.submatrix_apply, Matrix.fromBlocks, toMat,
        get0_brQ (i := i.val) (j := j.val), Nat.add_comm]

theorem toMat_npZipT_add {m : Nat} {X Y : Mat} (hX : Sqr m X) (hY : Sqr m Y)
    (hm : 0 < m) : toMat m (npZipT (· + ·) X Y) = toMat m X + toMat m Y := by
  ext i j
  rw [toMat, Matrix.of_apply, get0_npZipT hX hY hm i.isLt j.isLt]
  rfl

theorem toMat_npZipT_sub {m : Nat} {X Y : Mat} (hX : Sqr m X) (hY : Sqr m Y)
    (hm : 0 < m) : toMat m (npZipT (· - ·) X Y) = toMat m X - toMat m Y := by
  ext i j
  rw [toMat, Matrix.of_apply, get0_npZipT hX hY hm i.isLt j.isLt]
  rfl

/-! ## Quadrant assembly -/

theorem getEntry_asm_tl {mid : Nat} {C11 C12 C21 C22 : Mat}
    (h11 : Sqr mid C11) (h12 : Sqr mid C12) {i j : Nat} (hi : i < mid) (hj : j < mid) :
    getEntry ((C11.zipWith (· ++ ·) C12) ++ (C21.zipWith (· ++ ·) C22)) i j =
      getEntry C11 i j := by
  obtain ⟨r1, hr1, hl1⟩ := row_of_rect h11 hi
  obtain ⟨r2, hr2, hl2⟩ := row_of_rect h12 hi
  have hlen : (C11.zipWith (· ++ ·) C12).length = mid := by simp [h11.1, h12.1]
  rw [getEntry, List.getElem?_append_left (by omega), List.getElem?_zipWith', hr1, hr2]
  simp only [Option.map_some', Option.some_bind]
  rw [List.getElem?_append_left (by omega), getEntry, hr1]
  simp

theorem getEntry_asm_tr {mid : Nat} {C11 C12 C21 C22 : Mat}
    (h11 : Sqr mid C11) (h12 : Sqr mid C12) {i j : Nat} (hi : i < mid) :
    getEntry ((C11.zipWith (· ++ ·) C12) ++ (C21.zipWith (· ++ ·) C22)) i (mid + j) =
      getEntry C12 i j := by
  obtain ⟨r1, hr1, hl1⟩ := row_of_rect h11 hi
  obtain ⟨r2, hr2, hl2⟩ := row_of_rect h12 hi
  have hlen : (C11.zipWith (· ++ ·) C12).length = mid := by simp [h11.1, h12.1]
  rw [getEntry, List.getElem?_append_left (by omega), List.getElem?_zipWith', hr1, hr2]
  simp only [Option.map_some', Option.some_bind]
  rw [List.getElem?_append_right (by omega), getEntry, hr2]
  simp [hl1]

theorem getEntry_asm_bl {mid : Nat} {C11 C12 C21 C22 : Mat}
    (h11 : Sqr mid C11) (h12 : Sqr mid C12) (h21 : Sqr mid C21) (h22 : Sqr mid C22)
    {i j : Nat} (hi : i < mid) (hj : j < mid) :
    getEntry ((C11.zipWith (· ++ ·) C12) ++ (C21.zipWith (· ++ ·) C22)) (mid + i) j =
      getEntry C21 i j := by
  obtain ⟨r1, hr1, hl1⟩ := row_of_rect h21 hi
  obtain ⟨r2, hr2, hl2⟩ := row_of_rect h22 hi
  have hlen : (C11.zipWith (· ++ ·) C12).length = mid := by simp [h11.1, h12.1]
  rw [getEntry, List.getElem?_append_right (by omega)]
  have hidx : mid + i - (C11.zipWith (· ++ ·) C12).length = i := by omega
  rw [hidx, List.getElem?_zipWith', hr1, hr2]
  simp only [Option.map_some', Option.some_bind]
  rw [List.getElem?_append_left (by omega), getEntry, hr1]
  simp

theorem getEntry_asm_br {mid : Nat} {C11 C12 C21 C22 : Mat}
    (h11 : Sqr mid C11) (h12 : Sqr mid C12) (h21 : Sqr mid C21) (h22 : Sqr mid C22)
    {i j : Nat} (hi : i < mid) :
    getEntry ((C11.zipWith (· ++ ·) C12) ++ (C21.zipWith (· ++ ·) C22))
        (mid + i) (mid + j) = getEntry C22 i j := by
  obtain ⟨r1, hr1, hl1⟩ := row_of_rect h21 hi
  obtain ⟨r2, hr2, hl2⟩ := row_of_rect h22 hi
  have hlen : (C11.zipWith (· ++ ·) C12).length = mid := by simp [h11.1, h12.1]
  rw [getEntry, List.getElem?_append_right (by omega)]
  have hidx : mid + i - (C11.zipWith (· ++ ·) C12).length = i := by omega
  rw [hidx, List.getElem?_zipWith', hr1, hr2]
  simp only [Option.map_some', Option.some_bind]
  rw [List.getElem?_append_right (by omega), getEntry, hr2]
  simp [hl1]

theorem sqr_asm {mid : Nat} {C11 C12 C21 C22 : Mat}
    (h11 : Sqr mid C11) (h12 : Sqr mid C12) (h21 : Sqr mid C21) (h22 : Sqr mid C22) :
    Sqr (mid + mid) ((C11.zipWith (· ++ ·) C12) ++ (C21.zipWith (· ++ ·) C22)) := by
  constructor
  · simp [h11.1, h12.1, h21.1, h22.1]
  · intro row hrow
    rw [List.mem_append] at hrow
    rcases hrow with hrow | hrow
    · rw [List.mem_iff_get?] at hrow
      obtain ⟨i, hrow⟩ := hrow
      have hi : i < mid := by
        by_contra hge
        rw [List.get?_eq_getElem?, List.getElem?_eq_none (by simp [h11.1, h12.1]; omega)] at hrow
        exact Option.noConfusion hrow
      rw [List.get?_eq_getElem?, List.getElem?_zipWith'] at hrow
      obtain ⟨r1, hr1, hl1⟩ := row_of_rect h11 hi
      obtain ⟨r2, hr2, hl2⟩ := row_of_rect h12 hi
      rw [hr1, hr2] at hrow
      simp only [Option.map_some', Option.some_bind, Option.some.injEq] at hrow
      subst hrow
      simp [hl1, hl2]
    · rw [List.mem_iff_get?] at hrow
      obtain ⟨i, hrow⟩ := hrow
      have hi : i < mid := by
        by_contra hge
        rw [List.get?_eq_getElem?, List.getElem?_eq_none (by simp [h21.1, h22.1]; omega)] at hrow
        exact Option.noConfusion hrow
      rw [List.get?_eq_getElem?, List.getElem?_zipWith'] at hrow
      obtain ⟨r1, hr1, hl1⟩ := row_of_rect h21 hi
      obtain ⟨r2, hr2, hl2⟩ := row_of_rect h22 hi
      rw [hr1, hr2] at hrow
      simp only [Option.map_some', Option.some_bind, Option.some.injEq] at hrow
      subst hrow
      simp [hl1, hl2]

/-- `combine` on four `mid × mid` quadrants succeeds and produces the block
matrix. -/
theorem combine_ok {mid : Nat} {C11 C12 C21 C22 : Mat}
    (h11 : Sqr mid C11) (h12 : Sqr mid C12) (h21 : Sqr mid C21) (h22 : Sqr mid C22) :
    ∃ C, combine mid (mid + mid) C11 C12 C21 C22 = some C ∧ Sqr (mid + mid) C ∧
      (toMat (mid + mid) C).submatrix finSumFinEquiv finSumFinEquiv =
        Matrix.fromBlocks (toMat mid C11) (toMat mid C12)
          (toMat mid C21) (toMat mid C22) := by
  have hguard : Rect mid mid C11 ∧ Rect mid (mid + mid - mid) C12 ∧
      Rect (mid + mid - mid) mid C21 ∧ Rect (mid + mid - mid) (mid + mid - mid) C22 := by
    have hmm : mid + mid - mid = mid := by omega
    rw [hmm]
    exact ⟨h11, h12, h21, h22⟩
  refine ⟨_, by rw [combine, if_pos hguard], sqr_asm h11 h12 h21 h22, ?_⟩
  ext s t
  cases s with
  | inl i =>
    cases t with
    | inl j =>
      simp only [Matrix.submatrix_apply, finSumFinEquiv_apply_left,
        Matrix.fromBlocks_apply₁₁, toMat, Matrix.of_apply, Fin.coe_castAdd]
      rw [get0, getEntry_asm_tl h11 h12 i.isLt j.isLt, get0]
    | inr j =>
      simp only [Matrix.submatrix_apply, finSumFinEquiv_apply_left,
        finSumFinEquiv_apply_right, Matrix.fromBlocks_apply₁₂, toMat,
        Matrix.of_apply, Fin.coe_castAdd, Fin.coe_natAdd]
      rw [get0, getEntry_asm_tr h11 h12 i.isLt, get0]
  | inr i =>
    cases t with
    | inl j =>
      simp only [Matrix.submatrix_apply, finSumFinEquiv_apply_left,
        finSumFinEquiv_apply_right, Matrix.fromBlocks_apply₂₁, toMat,
        Matrix.of_apply, Fin.coe_castAdd, Fin.coe_natAdd]
      rw [get0, getEntry_asm_bl h11 h12 h21 h22 i.isLt j.isLt, get0]
    | inr j =>
      simp only [Matrix.submatrix_apply, finSumFinEquiv_apply_right,
        Matrix.fromBlocks_apply₂₂, toMat, Matrix.of_apply, Fin.coe_natAdd]
      rw [get0, getEntry_asm_br h11 h12 h21 h22 i.isLt, get0]

/-! ## The operation-count recurrence and recursion depth -/

/-- Modelled from the spec: the operation-count function
`f(n) = 7·f(n/2) + 10·(n/2)²` for `n > 2`, `f(n) = 2·n³` for `n ≤ 2`,
against which the count reported by `strassen_method` is compared. -/
def strassenFlops (n : Nat) : Nat :=
  if n ≤ 2 then 2 * n ^ 3 else 7 * strassenFlops (n / 2) + 10 * (n / 2) ^ 2
decreasing_by omega

/-- Modelled from the spec: the recursion depth of the Strassen
decomposition — each level recurses on dimension `n/2` and recursion stops
at `n ≤ 2`. -/
def strassenDepth (n : Nat) : Nat :=
  if n ≤ 2 then 0 else 1 + strassenDepth (n / 2)
decreasing_by omega

theorem strassenFlops_base {n : Nat} (h : n ≤ 2) : strassenFlops n = 2 * n ^ 3 := by
  rw [strassenFlops, if_pos h]

theorem strassenFlops_rec {n : Nat} (h : ¬ n ≤ 2) :
    strassenFlops n = 7 * strassenFlops (n / 2) + 10 * (n / 2) ^ 2 := by
  rw [strassenFlops, if_neg h]

/-- Depth bound: for `n = 2^k` the recursion depth is at most `k = log2 n`. -/
theorem strassenDepth_le (k : Nat) : strassenDepth (2 ^ k) ≤ k := by
  induction k with
  | zero => rw [strassenDepth]; simp
  | succ k ih =>
    rw [strassenDepth]
    split
    · omega
    · have hdiv : 2 ^ (k + 1) / 2 = 2 ^ k := by
        rw [pow_succ, Nat.mul_div_cancel]
        omega
      rw [hdiv]
      omega

/-! ## The Strassen recombination identity -/

/-- The classic Strassen identity over any four-quadrant decomposition:
the four recombined quadrants equal the four quadrants of the block
product. -/
theorem strassen_identity {mid : Nat}
    (A11 A12 A21 A22 B11 B12 B21 B22 : Matrix (Fin mid) (Fin mid) ℤ) :
    Matrix.fromBlocks
        ((A11 + A22) * (B11 + B22) + A22 * (B21 - B11) -
          (A11 + A12) * B22 + (A12 - A22) * (B21 + B22))
        (A11 * (B12 - B22) + (A11 + A12) * B22)
        ((A21 + A22) * B11 + A22 * (B21 - B11))
        ((A11 + A22) * (B11 + B22) + A11 * (B12 - B22) - (A21 + A22) * B11 -
          (A11 - A21) * (B11 + B12)) =
      Matrix.fromBlocks (A11 * B11 + A12 * B21) (A11 * B12 + A12 * B22)
        (A21 * B11 + A22 * B21) (A21 * B12 + A22 * B22) := by
  have h11 : (A11 + A22) * (B11 + B22) + A22 * (B21 - B11) -
      (A11 + A12) * B22 + (A12 - A22) * (B21 + B22) = A11 * B11 + A12 * B21 := by
    noncomm_ring
  have h12 : A11 * (B12 - B22) + (A11 + A12) * B22 = A11 * B12 + A12 * B22 := by
    noncomm_ring
  have h21 : (A21 + A22) * B11 + A22 * (B21 - B11) = A21 * B11 + A22 * B21 := by
    noncomm_ring
  have h22 : (A11 + A22) * (B11 + B22) + A11 * (B12 - B22) - (A21 + A22) * B11 -
      (A11 - A21) * (B11 + B12) = A21 * B12 + A22 * B22 := by
    noncomm_ring
  rw [h11, h12, h21, h22]

/-- `strassenPost` on seven square `m × m` products succeeds, adds
`10·(n/2)²` to the sum of the seven counts, and assembles the four
recombined quadrants. -/
theorem strassenPost_ok {m : Nat} (hm : 0 < m) (p1 p2 p3 p4 p5 p6 p7 : Mat × Nat)
    (h1 : Sqr m p1.1) (h2 : Sqr m p2.1) (h3 : Sqr m p3.1) (h4 : Sqr m p4.1)
    (h5 : Sqr m p5.1) (h6 : Sqr m p6.1) (h7 : Sqr m p7.1) :
    ∃ C, strassenPost m (m + m) p1 p2 p3 p4 p5 p6 p7 =
        some (C, p1.2 + p2.2 + p3.2 + p4.2 + p5.2 + p6.2 + p7.2 +
          10 * ((m + m) / 2) ^ 2) ∧
      Sqr (m + m) C ∧
      (toMat (m + m) C).submatrix finSumFinEquiv finSumFinEquiv =
        Matrix.fromBlocks
          (toMat m p5.1 + toMat m p4.1 - toMat m p2.1 + toMat m p6.1)
          (toMat m p1.1 + toMat m p2.1)
          (toMat m p3.1 + toMat m p4.1)
          (toMat m p5.1 + toMat m p1.1 - toMat m p3.1 - toMat m p7.1) := by
  have s1 : Sqr m (npZipT (· + ·) p5.1 p4.1) := rect_npZipT h5 h4 hm
  have s2 : Sqr m (npZipT (· - ·) (npZipT (· + ·) p5.1 p4.1) p2.1) :=
    rect_npZipT s1 h2 hm
  have s3 : Sqr m (npZipT (· + ·) (npZipT (· - ·) (npZipT (· + ·) p5.1 p4.1) p2.1) p6.1) :=
    rect_npZipT s2 h6 hm
  have s4 : Sqr m (npZipT (· + ·) p1.1 p2.1) := rect_npZipT h1 h2 hm
  have s5 : Sqr m (npZipT (· + ·) p3.1 p4.1) := rect_npZipT h3 h4 hm
  have s6 : Sqr m (npZipT (· + ·) p5.1 p1.1) := rect_npZipT h5 h1 hm
  have s7 : Sqr m (npZipT (· - ·) (npZipT (· + ·) p5.1 p1.1) p3.1) :=
    rect_npZipT s6 h3 hm
  have s8 : Sqr m (npZipT (· - ·) (npZipT (· - ·) (npZipT (· + ·) p5.1 p1.1) p3.1) p7.1) :=
    rect_npZipT s7 h7 hm
  obtain ⟨C, hC, hCsqr, hCmat⟩ := combine_ok s3 s4 s5 s8
  refine ⟨C, ?_, hCsqr, ?_⟩
  · unfold strassenPost
    rw [npAdd_of_rect h5 h4 hm]
    simp only [Option.bind_eq_bind, Option.some_bind]
    rw [npSub_of_rect s1 h2 hm]
    simp only [Option.some_bind]
    rw [npAdd_of_rect s2 h6 hm]
    simp only [Option.some_bind]
    rw [npAdd_of_rect h1 h2 hm]
    simp only [Option.some_bind]
    rw [npAdd_of_rect h3 h4 hm]
    simp only [Option.some_bind]
    rw [npAdd_of_rect h5 h1 hm]
    simp only [Option.some_bind]
    rw [npSub_of_rect s6 h3 hm]
    simp only [Option.some_bind]
    rw [npSub_of_rect s7 h7 hm]
    simp only [Option.some_bind]
    rw [hC]
    simp only [Option.some_bind]
    rfl
  · rw [hCmat, toMat_npZipT_add s2 h6 hm, toMat_npZipT_sub s1 h2 hm,
      toMat_npZipT_add h5 h4 hm, toMat_npZipT_add h1 h2 hm,
      toMat_npZipT_add h3 h4 hm, toMat_npZipT_sub s7 h7 hm,
      toMat_npZipT_sub s6 h3 hm, toMat_npZipT_add h5 h1 hm]

/-! ## Main structure theorem for `strassen_method` -/

/-- On square power-of-two inputs, `strassen_method` succeeds, reports
exactly `strassenFlops n` operations, and computes the matrix product. -/
theorem strassen_ok : ∀ k n, n = 2 ^ k → ∀ A B : Mat, Sqr n A → Sqr n B →
    ∃ C, strassen_method A B = some (C, strassenFlops n) ∧ Sqr n C ∧
      toMat n C = toMat n A * toMat n B := by
  intro k
  induction k using Nat.strong_induction_on with
  | _ k IH =>
    intro n hn A B hA hB
    by_cases hbase : n ≤ 2
    · -- base case: delegate to naive_method
      have hrA : rows A ≤ 2 := by rw [rows_of_rect hA]; exact hbase
      refine ⟨mulL A B n, ?_, rect_mulL A B n, toMat_mulL A B n⟩
      rw [strassen_method, dif_pos hrA, naive_method_sqr hA hB, strassenFlops_base hbase]
    · -- recursive case: n = 2^k with k ≥ 2
      have hk2 : 2 ≤ k := by
        by_contra hk
        interval_cases k <;> simp_all
      set m := 2 ^ (k - 1) with hmdef
      have hm : 0 < m := Nat.pos_pow_of_pos _ (by omega)
      have hmm : n = m + m := by
        have h2 : 2 ^ k = 2 ^ (k - 1) * 2 := by
          conv_lhs => rw [show k = (k - 1) + 1 by omega]
          rw [pow_succ]
        rw [hn, hmdef, h2]
        ring
      have hdiv : n / 2 = m := by omega
      have hmn : m ≤ n := by omega
      have hnm : n - m = m := by omega
      -- squareness of the eight quadrants
      have hA11 : Sqr m (tlQ A m) := rect_tlQ hA hmn hmn
      have hA12 : Sqr m (trQ A m) := by
        have h' := rect_trQ hA (m := m) hmn; rwa [hnm] at h'
      have hA21 : Sqr m (blQ A m) := by
        have h' := rect_blQ hA (m := m) hmn; rwa [hnm] at h'
      have hA22 : Sqr m (brQ A m) := by
        have h' := rect_brQ hA (m := m); rwa [hnm] at h'
      have hB11 : Sqr m (tlQ B m) := rect_tlQ hB hmn hmn
      have hB12 : Sqr m (trQ B m) := by
        have h' := rect_trQ hB (m := m) hmn; rwa [hnm] at h'
      have hB21 : Sqr m (blQ B m) := by
        have h' := rect_blQ hB (m := m) hmn; rwa [hnm] at h'
      have hB22 : Sqr m (brQ B m) := by
        have h' := rect_brQ hB (m := m); rwa [hnm] at h'
      -- squareness of the ten linear combinations
      have hS1 : Sqr m (npZipT (· - ·) (trQ B m) (brQ B m)) := rect_npZipT hB12 hB22 hm
      have hS2 : Sqr m (npZipT (· + ·) (tlQ A m) (trQ A m)) := rect_npZipT hA11 hA12 hm
      have hS3 : Sqr m (npZipT (· + ·) (blQ A m) (brQ A m)) := rect_npZipT hA21 hA22 hm
      have hS4 : Sqr m (npZipT (· - ·) (blQ B m) (tlQ B m)) := rect_npZipT hB21 hB11 hm
      have hS5 : Sqr m (npZipT (· + ·) (tlQ A m) (brQ A m)) := rect_npZipT hA11 hA22 hm
      have hS6 : Sqr m (npZipT (· + ·) (tlQ B m) (brQ B m)) := rect_npZipT hB11 hB22 hm
      have hS7 : Sqr m (npZipT (· - ·) (trQ A m) (brQ A m)) := rect_npZipT hA12 hA22 hm
      have hS8 : Sqr m (npZipT (· + ·) (blQ B m) (brQ B m)) := rect_npZipT hB21 hB22 hm
      have hS9 : Sqr m (npZipT (· - ·) (tlQ A m) (blQ A m)) := rect_npZipT hA11 hA21 hm
      have hS10 : Sqr m (npZipT (· + ·) (tlQ B m) (trQ B m)) := rect_npZipT hB11 hB12 hm
      -- the seven recursive calls, by the induction hypothesis at k - 1
      obtain ⟨C1, hP1, hC1sqr, hC1mat⟩ :=
        IH (k - 1) (by omega) m rfl _ _ hA11 hS1
      obtain ⟨C2, hP2, hC2sqr, hC2mat⟩ :=
        IH (k - 1) (by omega) m rfl _ _ hS2 hB22
      obtain ⟨C3, hP3, hC3sqr, hC3mat⟩ :=
        IH (k - 1) (by omega) m rfl _ _ hS3 hB11
      obtain ⟨C4, hP4, hC4sqr, hC4mat⟩ :=
        IH (k - 1) (by omega) m rfl _ _ hA22 hS4
      obtain ⟨C5, hP5, hC5sqr, hC5mat⟩ :=
        IH (k - 1) (by omega) m rfl _ _ hS5 hS6
      obtain ⟨C6, hP6, hC6sqr, hC6mat⟩ :=
        IH (k - 1) (by omega) m rfl _ _ hS7 hS8
      obtain ⟨C7, hP7, hC7sqr, hC7mat⟩ :=
        IH (k - 1) (by omega) m rfl _ _ hS9 hS10
      -- assembly
      obtain ⟨C, hCpost, hCsqr, hCmat⟩ :=
        strassenPost_ok hm (C1, strassenFlops m) (C2, strassenFlops m)
          (C3, strassenFlops m) (C4, strassenFlops m) (C5, strassenFlops m)
          (C6, strassenFlops m) (C7, strassenFlops m)
          hC1sqr hC2sqr hC3sqr hC4sqr hC5sqr hC6sqr hC7sqr
      have hrA2 : ¬ rows A ≤ 2 := by rw [rows_of_rect hA]; exact hbase
      have hguard : bcastOk (trQ B m) (brQ B m) ∧ bcastOk (tlQ A m) (trQ A m) ∧
          bcastOk (blQ A m) (brQ A m) ∧ bcastOk (blQ B m) (tlQ B m) ∧
          bcastOk (tlQ A m) (brQ A m) ∧ bcastOk (tlQ B m) (brQ B m) ∧
          bcastOk (trQ A m) (brQ A m) ∧ bcastOk (blQ B m) (brQ B m) ∧
          bcastOk (tlQ A m) (blQ A m) ∧ bcastOk (tlQ B m) (trQ B m) :=
        ⟨bcastOk_of_rect hB12 hB22 hm, bcastOk_of_rect hA11 hA12 hm,
         bcastOk_of_rect hA21 hA22 hm, bcastOk_of_rect hB21 hB11 hm,
         bcastOk_of_rect hA11 hA22 hm, bcastOk_of_rect hB11 hB22 hm,
         bcastOk_of_rect hA12 hA22 hm, bcastOk_of_rect hB21 hB22 hm,
         bcastOk_of_rect hA11 hA21 hm, bcastOk_of_rect hB11 hB12 hm⟩
      refine ⟨C, ?_, by rw [hmm]; exact hCsqr, ?_⟩
      · -- the equation for the returned pair
        rw [strassen_method, dif_neg hrA2]
        simp only [rows_of_rect hA, hdiv]
        rw [if_pos hguard]
        simp only [Option.bind_eq_bind]
        rw [hP1, Option.some_bind, hP2, Option.some_bind, hP3, Option.some_bind,
          hP4, Option.some_bind, hP5, Option.some_bind, hP6, Option.some_bind,
          hP7, Option.some_bind]
        rw [hmm, hCpost]
        congr 2
        have : (m + m) / 2 = m := by omega
        rw [this, strassenFlops_rec (by omega : ¬ m + m ≤ 2), show (m + m) / 2 = m by omega]
        ring
      · -- the matrix product
        rw [hmm]
        apply eq_of_submatrix_equiv finSumFinEquiv
        rw [hCmat]
        simp only
        rw [hC1mat, hC2mat, hC3mat, hC4mat, hC5mat, hC6mat, hC7mat]
        rw [toMat_npZipT_sub hB12 hB22 hm, toMat_npZipT_add hA11 hA12 hm,
          toMat_npZipT_add hA21 hA22 hm, toMat_npZipT_sub hB21 hB11 hm,
          toMat_npZipT_add hA11 hA22 hm, toMat_npZipT_add hB11 hB22 hm,
          toMat_npZipT_sub hA12 hA22 hm, toMat_npZipT_add hB21 hB22 hm,
          toMat_npZipT_sub hA11 hA21 hm, toMat_npZipT_add hB11 hB12 hm]
        rw [strassen_identity]
        rw [← Matrix.submatrix_mul_equiv (toMat (m + m) A) (toMat (m + m) B)
          (⇑(finSumFinEquiv : Fin m ⊕ Fin m ≃ Fin (m + m))) finSumFinEquiv
          (⇑(finSumFinEquiv : Fin m ⊕ Fin m ≃ Fin (m + m)))]
        rw [submatrix_toMat, submatrix_toMat, Matrix.fromBlocks_multiply]

/-! ## Failure analysis: out-of-range reads and odd dimensions -/

/-- The inner loop aborts whenever one of its reads is out of range. -/
theorem innerLoop_none {A B : Mat} {i j : Nat} {ks : List Nat}
    (h : ∃ k ∈ ks, getEntry A i k = none ∨ getEntry B k j = none) :
    ∀ cf, innerLoop A B i j ks cf = none := by
  induction ks with
  | nil => obtain ⟨k, hk, -⟩ := h; simp at hk
  | cons k ks ih =>
    intro cf
    rw [innerLoop]
    cases hA : getEntry A i k with
    | none => simp
    | some a =>
      cases hB : getEntry B k j with
      | none => simp
      | some b =>
        simp only [Option.bind_eq_bind, Option.some_bind]
        apply ih
        obtain ⟨k', hk', hfail⟩ := h
        rcases List.mem_cons.mp hk' with rfl | hk'
        · rw [hA, hB] at hfail
          rcases hfail with h | h <;> exact absurd h (by simp)
        · exact ⟨k', hk', hfail⟩

/-- `naive_method` aborts with an `IndexError` as soon as any read of the
first inner loop (`i = 0`, `j = 0`) is out of range. -/
theorem naive_method_none_missing {A B : Mat} (hA : 0 < rows A)
    (h : ∃ kw < rows A, getEntry A 0 kw = none ∨ getEntry B kw 0 = none) :
    naive_method A B = none := by
  rw [naive_method]
  show outerLoop A B (rows A) (List.range (rows A)) ([], 0) = none
  obtain ⟨n', hn'⟩ : ∃ n', rows A = n' + 1 := ⟨rows A - 1, by omega⟩
  rw [hn', List.range_succ_eq_map]
  rw [outerLoop]
  have hrow : rowLoop A B 0 (n' + 1) (List.range (n' + 1)) ([], (([], 0) : Mat × Nat).2) =
      none := by
    rw [List.range_succ_eq_map, rowLoop]
    have hinner : innerLoop A B 0 0 (List.range (n' + 1)) (0, 0) = none := by
      apply innerLoop_none
      obtain ⟨kw, hkw, hfail⟩ := h
      exact ⟨kw, by simp; omega, hfail⟩
    rw [hinner]
    rfl
  rw [hrow]
  rfl

/-- Special case: `B` has fewer rows than `A.shape[0]`. -/
theorem naive_method_none_short {A B : Mat} (hA : 0 < rows A)
    (hB : B.length < rows A) : naive_method A B = none := by
  apply naive_method_none_missing hA
  refine ⟨B.length, hB, Or.inr ?_⟩
  rw [getEntry, List.getElem?_eq_none (by omega)]
  rfl

/-- `strassen_method` fails on every pair of square matrices of odd
dimension `n > 2`: for `n ≥ 5` the very first quadrant combination
`S1 = B12 - B22` is not broadcastable; for `n = 3` broadcasting lets the
combinations through but the recursive product `P3 = strassen(S3, B11)`
reads past the single row of `B11` inside `naive_method`. -/
theorem strassen_odd_none {n : Nat} (hodd : n % 2 = 1) (h2 : 2 < n) {A B : Mat}
    (hA : Sqr n A) (hB : Sqr n B) : strassen_method A B = none := by
  have hrA2 : ¬ rows A ≤ 2 := by rw [rows_of_rect hA]; omega
  have hpos : 0 < n := by omega
  have hmidpos : 0 < n / 2 := by omega
  have hmn : n / 2 ≤ n := by omega
  rw [strassen_method, dif_neg hrA2]
  simp only [rows_of_rect hA]
  -- shapes of the four B quadrants
  have hB12 : Rect (n / 2) (n - n / 2) (trQ B (n / 2)) := rect_trQ hB hmn
  have hB22 : Rect (n - n / 2) (n - n / 2) (brQ B (n / 2)) := rect_brQ hB
  by_cases h5 : 5 ≤ n
  · -- the S1 shapes (mid, n - mid) and (n - mid, n - mid) are incompatible
    rw [if_neg]
    intro hg
    obtain ⟨⟨hr, -⟩, -⟩ := hg
    rw [rows_of_rect hB12, rows_of_rect hB22] at hr
    rcases hr with h | h | h <;> omega
  · -- n = 3
    have hn3 : n = 3 := by omega
    subst hn3
    have hA11 : Rect 1 1 (tlQ A 1) := rect_tlQ hA (by omega) (by omega)
    have hA12 : Rect 1 2 (trQ A 1) := by
      have h' := rect_trQ hA (m := 1) (by omega); exact h'
    have hA21 : Rect 2 1 (blQ A 1) := by
      have h' := rect_blQ hA (m := 1) (by omega); exact h'
    have hA22 : Rect 2 2 (brQ A 1) := rect_brQ hA
    have hB11 : Rect 1 1 (tlQ B 1) := rect_tlQ hB (by omega) (by omega)
    have hB21 : Rect 2 1 (blQ B 1) := by
      have h' := rect_blQ hB (m := 1) (by omega); exact h'
    have e12 : Rect 1 2 (trQ B 1) := hB12
    have e22 : Rect 2 2 (brQ B 1) := hB22
    have hguard : bcastOk (trQ B 1) (brQ B 1) ∧ bcastOk (tlQ A 1) (trQ A 1) ∧
        bcastOk (blQ A 1) (brQ A 1) ∧ bcastOk (blQ B 1) (tlQ B 1) ∧
        bcastOk (tlQ A 1) (brQ A 1) ∧ bcastOk (tlQ B 1) (brQ B 1) ∧
        bcastOk (trQ A 1) (brQ A 1) ∧ bcastOk (blQ B 1) (brQ B 1) ∧
        bcastOk (tlQ A 1) (blQ A 1) ∧ bcastOk (tlQ B 1) (trQ B 1) := by
      refine ⟨⟨Or.inr (Or.inl (rows_of_rect e12)), Or.inl ?_⟩,
        ⟨Or.inl ?_, Or.inr (Or.inl (cols_of_rect hA11 one_pos))⟩,
        ⟨Or.inl ?_, Or.inr (Or.inl (cols_of_rect hA21 (by omega)))⟩,
        ⟨Or.inr (Or.inr (rows_of_rect hB11)), Or.inl ?_⟩,
        ⟨Or.inr (Or.inl (rows_of_rect hA11)), Or.inr (Or.inl (cols_of_rect hA11 one_pos))⟩,
        ⟨Or.inr (Or.inl (rows_of_rect hB11)), Or.inr (Or.inl (cols_of_rect hB11 one_pos))⟩,
        ⟨Or.inr (Or.inl (rows_of_rect hA12)), Or.inl ?_⟩,
        ⟨Or.inl ?_, Or.inr (Or.inl (cols_of_rect hB21 (by omega)))⟩,
        ⟨Or.inr (Or.inl (rows_of_rect hA11)), Or.inl ?_⟩,
        ⟨Or.inl ?_, Or.inr (Or.inl (cols_of_rect hB11 one_pos))⟩⟩
      · rw [cols_of_rect e12 one_pos, cols_of_rect e22 (by omega)]
      · rw [rows_of_rect hA11, rows_of_rect hA12]
      · rw [rows_of_rect hA21, rows_of_rect hA22]
      · rw [cols_of_rect hB21 (by omega), cols_of_rect hB11 one_pos]
      · rw [cols_of_rect hA12 one_pos, cols_of_rect hA22 (by omega)]
      · rw [rows_of_rect hB21, rows_of_rect e22]
      · rw [cols_of_rect hA11 one_pos, cols_of_rect hA21 (by omega)]
      · rw [rows_of_rect hB11, rows_of_rect e12]
    rw [if_pos hguard]
    simp only [Option.bind_eq_bind]
    -- P3 = strassen(S3, B11) fails: S3 has two rows, B11 a single one
    have hP3 : strassen_method (npZipT (· + ·) (blQ A 1) (brQ A 1)) (tlQ B 1) = none := by
      have hrows : rows (npZipT (· + ·) (blQ A 1) (brQ A 1)) = 2 := by
        rw [rows, rows_npZipT, rows_of_rect hA21, rows_of_rect hA22]
        rfl
      rw [strassen_method, dif_pos (by rw [hrows])]
      apply naive_method_none_short (by rw [hrows]; omega)
      rw [hrows, ← rows, rows_of_rect hB11]
      omega
    cases hP1 : strassen_method (tlQ A 1) (npZipT (· - ·) (trQ B 1) (brQ B 1)) with
    | none => simp
    | some p1 =>
      cases hP2 : strassen_method (npZipT (· + ·) (tlQ A 1) (trQ A 1)) (brQ B 1) with
      | none => simp
      | some p2 =>
        simp only [Option.some_bind]
        rw [hP3]
        rfl

/-! ## Zero and identity matrices -/

/-- The all-zero `n × n` matrix (`np.zeros((n, n))`). -/
def zeroL (n : Nat) : Mat :=
  (List.range n).map fun _ => (List.range n).map fun _ => (0 : Int)

/-- The `n × n` identity matrix (`np.eye(n)`). -/
def idL (n : Nat) : Mat :=
  (List.range n).map fun i => (List.range n).map fun j => if i = j then (1 : Int) else 0

theorem sqr_zeroL (n : Nat) : Sqr n (zeroL n) := by
  constructor
  · simp [zeroL]
  · intro row hrow
    simp only [zeroL, List.mem_map] at hrow
    obtain ⟨i, -, rfl⟩ := hrow
    simp

theorem sqr_idL (n : Nat) : Sqr n (idL n) := by
  constructor
  · simp [idL]
  · intro row hrow
    simp only [idL, List.mem_map] at hrow
    obtain ⟨i, -, rfl⟩ := hrow
    simp

theorem toMat_zeroL (n : Nat) : toMat n (zeroL n) = 0 := by
  ext i j
  rw [toMat, Matrix.of_apply, get0, getEntry, zeroL, List.getElem?_map,
    List.getElem?_range i.isLt]
  simp [List.getElem?_range j.isLt]

theorem toMat_idL (n : Nat) : toMat n (idL n) = 1 := by
  ext i j
  rw [toMat, Matrix.of_apply, get0, getEntry, idL, List.getElem?_map,
    List.getElem?_range i.isLt]
  simp only [Option.map_some', Option.some_bind, List.getElem?_map,
    List.getElem?_range j.isLt, Option.getD_some, Matrix.one_apply]
  rcases eq_or_ne i j with h | h
  · simp [h, Fin.val_inj.mpr h]
  · have h' : ¬ i.val = j.val := fun hc => h (Fin.val_inj.mp hc)
    simp [h, h']

/-! ## The claims -/

/-- C1: for every pair of square matrices `A`, `B` of equal power-of-two
dimension `n`, `strassen_method(A, B)` returns the same result matrix as
`naive_method(A, B)` (exact arithmetic). -/
theorem C1_strassen_equals_naive {k n : Nat} (hn : n = 2 ^ k) {A B : Mat}
    (hA : Sqr n A) (hB : Sqr n B) :
    ∃ C fN fS, naive_method A B = some (C, fN) ∧ strassen_method A B = some (C, fS) := by
  obtain ⟨C, hS, hCsqr, hCmat⟩ := strassen_ok k n hn A B hA hB
  have hCeq : C = mulL A B n :=
    eq_of_toMat_eq hCsqr (rect_mulL A B n) (by rw [hCmat, toMat_mulL])
  refine ⟨C, 2 * n ^ 3, strassenFlops n, ?_, hS⟩
  rw [naive_method_sqr hA hB, hCeq]

theorem C1_witness :
    ∃ C fN fS,
      naive_method [[(1 : Int), 2, 3, 4], [5, 6, 7, 8], [9, 10, 11, 12], [13, 14, 15, 16]]
          [[(2 : Int), 0, 1, 0], [0, 2, 0, 1], [1, 0, 2, 0], [0, 1, 0, 2]] = some (C, fN) ∧
      strassen_method [[(1 : Int), 2, 3, 4], [5, 6, 7, 8], [9, 10, 11, 12], [13, 14, 15, 16]]
          [[(2 : Int), 0, 1, 0], [0, 2, 0, 1], [1, 0, 2, 0], [0, 1, 0, 2]] = some (C, fS) :=
  C1_strassen_equals_naive (k := 2) (n := 4) (by decide) (by decide) (by decide)

/-- C2: for every pair of square matrices of equal dimension `n`,
`naive_method` returns the matrix with entries `Σ_k A[i][k]·B[k][j]`
together with an operation count of exactly `2·n³`. -/
theorem C2_naive_correct {n : Nat} {A B : Mat} (hA : Sqr n A) (hB : Sqr n B) :
    ∃ C, naive_method A B = some (C, 2 * n ^ 3) ∧ Sqr n C ∧
      ∀ i j, i < n → j < n →
        get0 C i j = ∑ k ∈ Finset.range n, get0 A i k * get0 B k j := by
  refine ⟨mulL A B n, naive_method_sqr hA hB, rect_mulL A B n, ?_⟩
  intro i j hi hj
  rw [get0_mulL hi hj]
  unfold dotL
  rw [sum_range_list]

theorem C2_witness :
    ∃ C, naive_method [[(1 : Int), 2], [3, 4]] [[5, 6], [(7 : Int), 8]] =
        some (C, 2 * 2 ^ 3) ∧ Sqr 2 C ∧
      ∀ i j, i < 2 → j < 2 →
        get0 C i j = ∑ k ∈ Finset.range 2,
          get0 [[(1 : Int), 2], [3, 4]] i k * get0 [[(5 : Int), 6], [7, 8]] k j :=
  C2_naive_correct (by decide) (by decide)

/-- C3: on square power-of-two inputs the count reported by
`strassen_method` is `f(n)` for the function `f` satisfying
`f(n) = 7·f(n/2) + 10·(n/2)²` for `n > 2` and `f(n) = 2·n³` for `n ≤ 2`. -/
theorem C3_strassen_count_recurrence {k n : Nat} (hn : n = 2 ^ k) {A B : Mat}
    (hA : Sqr n A) (hB : Sqr n B) :
    (∃ C, strassen_method A B = some (C, strassenFlops n)) ∧
      (∀ s, s ≤ 2 → strassenFlops s = 2 * s ^ 3) ∧
      (∀ s, 2 < s → strassenFlops s = 7 * strassenFlops (s / 2) + 10 * (s / 2) ^ 2) := by
  obtain ⟨C, hS, -, -⟩ := strassen_ok k n hn A B hA hB
  exact ⟨⟨C, hS⟩, fun s hs => strassenFlops_base hs,
    fun s hs => strassenFlops_rec (by omega)⟩

theorem C3_witness :
    (∃ C, strassen_method [[(1 : Int), 0, 0, 2], [0, 1, 2, 0], [0, 2, 1, 0], [2, 0, 0, 1]]
        [[(1 : Int), 1, 0, 0], [0, 1, 1, 0], [0, 0, 1, 1], [1, 0, 0, 1]] =
        some (C, strassenFlops 4)) ∧
      (∀ s, s ≤ 2 → strassenFlops s = 2 * s ^ 3) ∧
      (∀ s, 2 < s → strassenFlops s = 7 * strassenFlops (s / 2) + 10 * (s / 2) ^ 2) :=
  C3_strassen_count_recurrence (k := 2) (by decide) (by decide) (by decide)

/-- C4: for `n ≤ 2`, `strassen_method` returns exactly the result and
count of `naive_method`. -/
theorem C4_base_case_identical {n : Nat} {A B : Mat} (hA : Sqr n A) (hB : Sqr n B)
    (h : n ≤ 2) : strassen_method A B = naive_method A B := by
  rw [strassen_method, dif_pos (by rw [rows_of_rect hA]; exact h)]

theorem C4_witness :
    strassen_method [[(1 : Int), 2], [3, 4]] [[5, 6], [(7 : Int), 8]] =
      naive_method [[(1 : Int), 2], [3, 4]] [[5, 6], [(7 : Int), 8]] :=
  C4_base_case_identical (n := 2) (by decide) (by decide) (by decide)

/-- C5 counterexample: `A` is `1 × 1`, `B` is `2 × 2` — the dimensions
differ, yet both multipliers succeed and return a result matrix together
with an operation count, contradicting the claim that every unequal-
dimension invocation fails. -/
theorem C5_counterexample :
    (1 : Nat) ≠ 2 ∧ Sqr 1 [[(1 : Int)]] ∧ Sqr 2 [[(1 : Int), 0], [0, 1]] ∧
      naive_method [[(1 : Int)]] [[1, 0], [0, 1]] = some ([[1]], 2) ∧
      strassen_method [[(1 : Int)]] [[1, 0], [0, 1]] = some ([[1]], 2) := by
  refine ⟨by decide, by decide, by decide, by decide, ?_⟩
  rw [strassen_method, dif_pos (by decide)]
  decide

/-- C5 amended: the code performs no dimension check at all.
`naive_method` reads only `A.shape[0] = n` rows/columns: when
`dim B < dim A` it fails with an out-of-range read and produces no
result, but when `dim A ≤ dim B` it succeeds, returning the `n × n`
product of `A` with the top-left `n × n` block of `B` (with count
`2·n³`); `strassen_method` inherits this behaviour in its base case
`dim A ≤ 2`. -/
theorem C5_amended_no_dimension_check :
    (∀ n m (A B : Mat), Sqr n A → Sqr m B → m < n → naive_method A B = none) ∧
      (∀ n m (A B : Mat), Sqr n A → Sqr m B → n ≤ m →
        naive_method A B = some (mulL A B n, 2 * n ^ 3)) ∧
      (∀ n (A B : Mat), Sqr n A → n ≤ 2 →
        strassen_method A B = naive_method A B) := by
  refine ⟨?_, ?_, ?_⟩
  · intro n m A B hA hB hmn
    apply naive_method_none_short
    · rw [rows_of_rect hA]; omega
    · rw [rows_of_rect hA, hB.1]; omega
  · intro n m A B hA hB hnm
    exact naive_method_ok (rows_of_rect hA)
      (fun i k hi hk => getEntry_isSome hA hi hk)
      (fun j k hj hk => getEntry_isSome hB (by omega) (by omega))
  · intro n A B hA h
    rw [strassen_method, dif_pos (by rw [rows_of_rect hA]; exact h)]

theorem C5_amended_witness :
    naive_method [[(3 : Int), 0], [0, 3]] [[(9 : Int)]] = none ∧
      naive_method [[(5 : Int)]] [[7, 0], [(0 : Int), 1]] =
        some (mulL [[(5 : Int)]] [[7, 0], [(0 : Int), 1]] 1, 2 * 1 ^ 3) ∧
      strassen_method [[(5 : Int)]] [[7, 0], [(0 : Int), 1]] =
        naive_method [[(5 : Int)]] [[7, 0], [(0 : Int), 1]] :=
  ⟨C5_amended_no_dimension_check.1 2 1 _ _ (by decide) (by decide) (by decide),
   C5_amended_no_dimension_check.2.1 1 2 _ _ (by decide) (by decide) (by decide),
   C5_amended_no_dimension_check.2.2 1 _ _ (by decide) (by decide)⟩

/-- C6: every square pair of odd dimension `n > 2` handed to the Strassen
decomposition fails (the embedded error, `none`, propagates to the
caller); no result matrix or count is produced. -/
theorem C6_odd_dimension_fails {n : Nat} (hodd : Odd n) (h2 : 2 < n) {A B : Mat}
    (hA : Sqr n A) (hB : Sqr n B) : strassen_method A B = none :=
  strassen_odd_none (Nat.odd_iff.mp hodd) h2 hA hB

theorem C6_witness :
    strassen_method [[(1 : Int), 2, 3], [4, 5, 6], [7, 8, 9]]
      [[(9 : Int), 8, 7], [6, 5, 4], [3, 2, 1]] = none :=
  C6_odd_dimension_fails (n := 3) (by decide) (by decide) (by decide) (by decide)

/-- C8: multiplying a square power-of-two matrix `A` by the all-zero
matrix (on either side, under either method) yields the all-zero matrix,
and multiplying by the identity yields `A` itself (exact arithmetic). -/
theorem C8_zero_and_identity {k n : Nat} (hn : n = 2 ^ k) {A : Mat} (hA : Sqr n A) :
    (∃ f, naive_method A (zeroL n) = some (zeroL n, f)) ∧
      (∃ f, strassen_method A (zeroL n) = some (zeroL n, f)) ∧
      (∃ f, naive_method (zeroL n) A = some (zeroL n, f)) ∧
      (∃ f, strassen_method (zeroL n) A = some (zeroL n, f)) ∧
      (∃ f, naive_method A (idL n) = some (A, f)) ∧
      (∃ f, strassen_method A (idL n) = some (A, f)) ∧
      (∃ f, naive_method (idL n) A = some (A, f)) ∧
      (∃ f, strassen_method (idL n) A = some (A, f)) := by
  have hz := sqr_zeroL n
  have hi := sqr_idL n
  refine ⟨⟨2 * n ^ 3, ?_⟩, ?_, ⟨2 * n ^ 3, ?_⟩, ?_, ⟨2 * n ^ 3, ?_⟩, ?_,
    ⟨2 * n ^ 3, ?_⟩, ?_⟩
  · have hlist : mulL A (zeroL n) n = zeroL n :=
      eq_of_toMat_eq (rect_mulL _ _ _) hz (by rw [toMat_mulL, toMat_zeroL, mul_zero])
    rw [naive_method_sqr hA hz, hlist]
  · obtain ⟨C, hS, hCsqr, hCmat⟩ := strassen_ok k n hn A (zeroL n) hA hz
    have hCeq : C = zeroL n :=
      eq_of_toMat_eq hCsqr hz (by rw [hCmat, toMat_zeroL, mul_zero])
    exact ⟨strassenFlops n, by rw [hS, hCeq]⟩
  · have hlist : mulL (zeroL n) A n = zeroL n :=
      eq_of_toMat_eq (rect_mulL _ _ _) hz (by rw [toMat_mulL, toMat_zeroL, zero_mul])
    rw [naive_method_sqr hz hA, hlist]
  · obtain ⟨C, hS, hCsqr, hCmat⟩ := strassen_ok k n hn (zeroL n) A hz hA
    have hCeq : C = zeroL n :=
      eq_of_toMat_eq hCsqr hz (by rw [hCmat, toMat_zeroL, zero_mul])
    exact ⟨strassenFlops n, by rw [hS, hCeq]⟩
  · have hlist : mulL A (idL n) n = A :=
      eq_of_toMat_eq (rect_mulL _ _ _) hA (by rw [toMat_mulL, toMat_idL, mul_one])
    rw [naive_method_sqr hA hi, hlist]
  · obtain ⟨C, hS, hCsqr, hCmat⟩ := strassen_ok k n hn A (idL n) hA hi
    have hCeq : C = A :=
      eq_of_toMat_eq hCsqr hA (by rw [hCmat, toMat_idL, mul_one])
    exact ⟨strassenFlops n, by rw [hS, hCeq]⟩
  · have hlist : mulL (idL n) A n = A :=
      eq_of_toMat_eq (rect_mulL _ _ _) hA (by rw [toMat_mulL, toMat_idL, one_mul])
    rw [naive_method_sqr hi hA, hlist]
  · obtain ⟨C, hS, hCsqr, hCmat⟩ := strassen_ok k n hn (idL n) A hi hA
    have hCeq : C = A :=
      eq_of_toMat_eq hCsqr hA (by rw [hCmat, toMat_idL, one_mul])
    exact ⟨strassenFlops n, by rw [hS, hCeq]⟩

theorem C8_witness :
    (∃ f, naive_method [[(2 : Int), 3], [5, 7]] (zeroL 2) = some (zeroL 2, f)) ∧
      (∃ f, strassen_method [[(2 : Int), 3], [5, 7]] (zeroL 2) = some (zeroL 2, f)) ∧
      (∃ f, naive_method (zeroL 2) [[(2 : Int), 3], [5, 7]] = some (zeroL 2, f)) ∧
      (∃ f, strassen_method (zeroL 2) [[(2 : Int), 3], [5, 7]] = some (zeroL 2, f)) ∧
      (∃ f, naive_method [[(2 : Int), 3], [5, 7]] (idL 2) =
        some ([[(2 : Int), 3], [5, 7]], f)) ∧
      (∃ f, strassen_method [[(2 : Int), 3], [5, 7]] (idL 2) =
        some ([[(2 : Int), 3], [5, 7]], f)) ∧
      (∃ f, naive_method (idL 2) [[(2 : Int), 3], [5, 7]] =
        some ([[(2 : Int), 3], [5, 7]], f)) ∧
      (∃ f, strassen_method (idL 2) [[(2 : Int), 3], [5, 7]] =
        some ([[(2 : Int), 3], [5, 7]], f)) :=
  C8_zero_and_identity (k := 1) (by decide) (by decide)

/-- C9: on square power-of-two inputs `strassen_method` terminates with a
result, and the recursion depth of the dimension recursion (halving until
`n ≤ 2`) is bounded by `log2 n`. -/
theorem C9_terminates_depth_log {k n : Nat} (hn : n = 2 ^ k) {A B : Mat}
    (hA : Sqr n A) (hB : Sqr n B) :
    (∃ C f, strassen_method A B = some (C, f)) ∧ strassenDepth n ≤ Nat.log2 n := by
  obtain ⟨C, hS, -, -⟩ := strassen_ok k n hn A B hA hB
  refine ⟨⟨C, strassenFlops n, hS⟩, ?_⟩
  rw [hn, Nat.log2_two_pow]
  exact strassenDepth_le k

theorem C9_witness :
    (∃ C f, strassen_method [[(1 : Int), 1, 0, 0], [0, 1, 1, 0], [0, 0, 1, 1], [1, 0, 0, 1]]
        [[(1 : Int), 0, 0, 1], [1, 1, 0, 0], [0, 1, 1, 0], [0, 0, 1, 1]] = some (C, f)) ∧
      strassenDepth 4 ≤ Nat.log2 4 :=
  C9_terminates_depth_log (k := 2) (by decide) (by decide) (by decide)

/-- C10: the reported operation count depends only on the dimension, never
on the entry values: two same-dimension pairs always get the same naive
count, and (for power-of-two dimensions) the same Strassen count. -/
theorem C10_count_entry_independent {n : Nat} {A B A2 B2 : Mat}
    (hA : Sqr n A) (hB : Sqr n B) (hA2 : Sqr n A2) (hB2 : Sqr n B2) :
    (naive_method A B).map Prod.snd = (naive_method A2 B2).map Prod.snd ∧
      ∀ k, n = 2 ^ k →
        (strassen_method A B).map Prod.snd = (strassen_method A2 B2).map Prod.snd := by
  constructor
  · rw [naive_method_sqr hA hB, naive_method_sqr hA2 hB2]
    rfl
  · intro k hk
    obtain ⟨C, hS, -, -⟩ := strassen_ok k n hk A B hA hB
    obtain ⟨C2, hS2, -, -⟩ := strassen_ok k n hk A2 B2 hA2 hB2
    rw [hS, hS2]
    rfl

theorem C10_witness :
    (naive_method [[(0 : Int), 0], [0, 0]] [[0, 0], [(0 : Int), 0]]).map Prod.snd =
        (naive_method [[(9 : Int), 8], [7, 6]] [[5, 4], [(3 : Int), 2]]).map Prod.snd ∧
      ∀ k, 2 = 2 ^ k →
        (strassen_method [[(0 : Int), 0], [0, 0]] [[0, 0], [(0 : Int), 0]]).map Prod.snd =
          (strassen_method [[(9 : Int), 8], [7, 6]] [[5, 4], [(3 : Int), 2]]).map Prod.snd :=
  C10_count_entry_independent (by decide) (by decide) (by decide) (by decide)

end AMS326
